import Mathlib

/-!
Verification development for the wiki category-graph pipeline
(`db/tree.py`, `db/assets.py`, `main.py`).

The graph model mirrors `networkx.DiGraph` as the repository uses it:
node identity is an integer page id kept in insertion order, node
attributes are the `{name, page_count}` dictionary, and edges form a
set (no parallel edges) kept in insertion order.  Iterator-based Python
constructs are embedded with their exact one-shot consumption
semantics, and dictionary mutation during iteration is modelled as the
`RuntimeError` CPython raises.

The file is laid out with all definitions first and all theorems after
them.
-/

namespace CatDb

/-- The `{name, page_count}` attribute dictionary of a node
(`CategoryAttributes` in `db/tree.py`).  A `none` field is an absent
dictionary key; both absent means the empty dictionary. -/
structure NodeAttrs where
  name : Option String
  page_count : Option Int
deriving DecidableEq, Repr

/-- The empty attribute dictionary a node gets when it is created
implicitly by an edge insertion. -/
def NodeAttrs.emptyA : NodeAttrs := ⟨none, none⟩

/-- Shallow embedding of `networkx.DiGraph` state as used by
`CategoryTree`: node list in insertion order, per-node attributes, and
the edge list in insertion order (sets, never multisets). -/
structure Graph where
  nodes : List Nat
  attrs : Nat → NodeAttrs
  edges : List (Nat × Nat)

/-- The empty graph (`CategoryTree()` with no data). -/
def Graph.emptyG : Graph := ⟨[], fun _ => NodeAttrs.emptyA, []⟩

/-- `networkx` `add_node`: appends the node if absent, otherwise no
change (existing attributes are kept). -/
def Graph.addNode (g : Graph) (n : Nat) : Graph :=
  if n ∈ g.nodes then g else { g with nodes := g.nodes ++ [n] }

/-- `networkx` `add_edge`: endpoints are added as attribute-less nodes
if missing, and the edge is inserted only if not already present. -/
def Graph.addEdge (g : Graph) (p : Nat × Nat) : Graph :=
  let g1 := (g.addNode p.1).addNode p.2
  if p ∈ g1.edges then g1 else { g1 with edges := g1.edges ++ [p] }

/-- `networkx` `add_edges_from`. -/
def Graph.add_edges_from (g : Graph) (es : List (Nat × Nat)) : Graph :=
  es.foldl Graph.addEdge g

/-- `networkx` `remove_node`: drops the node, its attribute dictionary
and all incident edges. -/
def Graph.removeNode (g : Graph) (n : Nat) : Graph :=
  { nodes := g.nodes.filter fun m => decide (m ≠ n)
    attrs := fun m => if m = n then NodeAttrs.emptyA else g.attrs m
    edges := g.edges.filter fun e => decide (e.1 ≠ n ∧ e.2 ≠ n) }

/-- `networkx` `remove_nodes_from`. -/
def Graph.removeNodesFrom (g : Graph) (l : List Nat) : Graph :=
  l.foldl Graph.removeNode g

/-- `DiGraph.successors n` in iteration order (the order the out-edges
of `n` were inserted). -/
def Graph.successors (g : Graph) (n : Nat) : List Nat :=
  (g.edges.filter fun e => decide (e.1 = n)).map Prod.snd

/-- `DiGraph.predecessors n` in iteration order (the order the
in-edges of `n` were inserted). -/
def Graph.predecessors (g : Graph) (n : Nat) : List Nat :=
  (g.edges.filter fun e => decide (e.2 = n)).map Prod.fst

/-- Well-formedness invariant `networkx` maintains: every edge endpoint
is a node of the graph. -/
def Graph.WF (g : Graph) : Prop :=
  ∀ e ∈ g.edges, e.1 ∈ g.nodes ∧ e.2 ∈ g.nodes

instance (g : Graph) : Decidable g.WF := by
  unfold Graph.WF; infer_instance

/-! ### `CategoryTree.remove_node_reconstruct` (`db/tree.py` 230-237)

In the source, `self.successors(category_id)` and
`self.predecessors(category_id)` are one-shot iterators, and
`tuple((p, s) for p in predecessors for s in successors)` consumes the
`successors` iterator entirely during the first predecessor's inner
pass; every later predecessor pairs with an exhausted iterator.  The
embedding reproduces exactly that consumption. -/

def Graph.remove_node_reconstruct (g : Graph) (category_id : Nat) : Graph :=
  let successorsIt := g.successors category_id
  let predecessorsIt := g.predecessors category_id
  let new_edges : List (Nat × Nat) :=
    match predecessorsIt with
    | [] => []
    | p :: _ => successorsIt.map fun s => (p, s)
  (g.add_edges_from new_edges).removeNode category_id

/-- `CategoryTree.remove_by_condition` (`db/tree.py` 244-248): the
condition is evaluated for every node on a snapshot taken before any
mutation, then every collected node is removed reconstructively.  The
method has no `reconstruct` parameter. -/
def Graph.remove_by_condition (g : Graph) (condition : Nat → NodeAttrs → Bool) : Graph :=
  let to_remove := g.nodes.filter fun n => condition n (g.attrs n)
  to_remove.foldl Graph.remove_node_reconstruct g

/-! ### `CategoryTree.add_assets` (`db/tree.py` 188-228)

The build pass consumes the three record streams of the tree-variant
extractors.  Python dictionaries are modelled as insertion-ordered
association lists with the dict update rule (an existing key keeps its
position and gets the new value). -/

namespace Tree

/-- `PageTableEntry` of `db/tree.py` (namespace-14 pages only). -/
structure PageTableEntry where
  page_id : Nat
  name : String
deriving DecidableEq, Repr

/-- `CategoryLinksEntry` of `db/tree.py`. -/
structure CategoryLinksEntry where
  child_id : Nat
  parent_name : String
deriving DecidableEq, Repr

/-- `CategoryEntry` of `db/tree.py`. -/
structure CategoryEntry where
  name : String
  pages : Int
  subcategories : Int
deriving DecidableEq, Repr

/-- Python `dict` insertion: updating an existing key keeps its
position, a new key is appended. -/
def dinsert {α β : Type} [BEq α] (d : List (α × β)) (k : α) (v : β) : List (α × β) :=
  if d.any fun p => p.1 == k then
    d.map fun p => if p.1 == k then (k, v) else p
  else d ++ [(k, v)]

/-- `id_to_name`: dict comprehension over the page entries. -/
def id_to_name (pages : List PageTableEntry) : List (Nat × String) :=
  pages.foldl (fun d e => dinsert d e.page_id e.name) []

/-- `name_to_id`: inversion of `id_to_name`. -/
def name_to_id (pages : List PageTableEntry) : List (String × Nat) :=
  (id_to_name pages).foldl (fun d p => dinsert d p.2 p.1) []

/-- The raw edge list: a link contributes `(resolved_parent, child)`
iff the child id is a known page and the parent name resolves. -/
def edgesOf (pages : List PageTableEntry) (links : List CategoryLinksEntry) :
    List (Nat × Nat) :=
  links.filterMap fun l =>
    match (name_to_id pages).lookup l.parent_name with
    | none => none
    | some parent =>
        if (id_to_name pages).any fun q => q.1 == l.child_id then
          some (parent, l.child_id)
        else none

/-- `id_to_page_count`: `pages - subcategories` for every category
record whose name is a known category. -/
def id_to_page_count (pages : List PageTableEntry) (cats : List CategoryEntry) :
    List (Nat × Int) :=
  cats.foldl
    (fun d c =>
      match (name_to_id pages).lookup c.name with
      | some i => dinsert d i (c.pages - c.subcategories)
      | none => d)
    []

/-- Setting both attributes of one node (the two assignments inside the
`try` block; `self.nodes[category_id]` raises before either assignment
when the node is absent, so the pair is atomic). -/
def setBothAttrs (g : Graph) (n : Nat) (nm : String) (pc : Int) : Graph :=
  { g with attrs := fun m => if m = n then ⟨some nm, some pc⟩ else g.attrs m }

/-- One iteration of the attribute-assignment loop: look the name up
(always succeeds for keys of `id_to_page_count`), then either annotate
the node or hit the `KeyError`/warning path and leave the graph
unchanged. -/
def attrStep (pages : List PageTableEntry) (g : Graph) (p : Nat × Int) : Graph :=
  match (id_to_name pages).lookup p.1 with
  | some nm => if p.1 ∈ g.nodes then setBothAttrs g p.1 nm p.2 else g
  | none => g

/-- The edge-insertion plus attribute-assignment phase of `add_assets`
(everything before the final cleanup loop), run on a fresh graph as the
`CategoryTree(assets=...)` constructor does. -/
def build_attr_phase (pages : List PageTableEntry) (links : List CategoryLinksEntry)
    (cats : List CategoryEntry) : Graph :=
  let g1 := Graph.emptyG.add_edges_from (edgesOf pages links)
  (id_to_page_count pages cats).foldl (attrStep pages) g1

/-- The final loop of `add_assets`: `for n in self.nodes:` over the
live node dictionary, removing attribute-less nodes as it goes.  After
a removal the dictionary has changed size, so the iterator's next
`__next__` call raises `RuntimeError` (CPython raises it even on the
call that would otherwise end the loop). -/
def cleanupLoop (g : Graph) : List Nat → Bool → Except String Graph
  | [], mutated =>
      if mutated then .error "RuntimeError: dictionary changed size during iteration"
      else .ok g
  | n :: rest, mutated =>
      if mutated then .error "RuntimeError: dictionary changed size during iteration"
      else if g.attrs n = NodeAttrs.emptyA then
        cleanupLoop (g.remove_node_reconstruct n) rest true
      else cleanupLoop g rest false

/-- `add_assets` on a fresh graph: build, annotate, then the cleanup
loop over the node iterator. -/
def add_assets (pages : List PageTableEntry) (links : List CategoryLinksEntry)
    (cats : List CategoryEntry) : Except String Graph :=
  let g2 := build_attr_phase pages links cats
  cleanupLoop g2 g2.nodes false

end Tree

/-! ### Snapshot codec (`db/tree.py` 179-186)

`serialize` pickles the graph object: the persisted state is the node
dictionary with its attribute dictionaries plus the adjacency.
`deserialize` feeds the unpickled graph to the `CategoryTree`
constructor, which rebuilds nodes, edges and then node attributes from
it (`networkx` graph-data conversion). -/

/-- The persisted state of a pickled `CategoryTree`. -/
structure Snapshot where
  nodeData : List (Nat × NodeAttrs)
  adjData : List (Nat × Nat)
deriving DecidableEq, Repr

/-- `CategoryTree.serialize`: pickle the node dictionary (with
attributes) and the adjacency. -/
def Graph.serialize (g : Graph) : Snapshot :=
  ⟨g.nodes.map fun n => (n, g.attrs n), g.edges⟩

/-- `add_nodes_from(data.nodes(data=True))`: upsert one node with its
attribute dictionary. -/
def setNodeData (g : Graph) (p : Nat × NodeAttrs) : Graph :=
  let g1 := g.addNode p.1
  { g1 with attrs := fun m => if m = p.1 then p.2 else g1.attrs m }

/-- `CategoryTree.deserialize`: unpickle and pass through the
constructor, which adds all nodes, then all edges from the adjacency,
then the node attribute dictionaries. -/
def deserialize (s : Snapshot) : Graph :=
  let g1 := (s.nodeData.map Prod.fst).foldl Graph.addNode Graph.emptyG
  let g2 := g1.add_edges_from s.adjData
  s.nodeData.foldl setNodeData g2

/-! ### Percentile (`db/tree.py` 239-242)

`np.percentile` with the default linear interpolation, over exact
rationals.  An empty value list raises (`IndexError`), as does a
percentile outside [0, 100] (`ValueError`); a node without the
`page_count` key raises `KeyError` before numpy is reached. -/

/-- Linear interpolation at percentile `p` over an ascending sorted
nonempty list: index `p/100 * (n-1)`, interpolating between the two
neighbouring order statistics. -/
def interpolate (sorted : List ℚ) (p : ℚ) : ℚ :=
  let n := sorted.length
  let rank := p * (n - 1 : ℚ) / 100
  let i : Nat := (max 0 ⌊rank⌋).toNat
  let lo := sorted.getD i 0
  let hi := sorted.getD (min (i + 1) (n - 1)) 0
  lo + (rank - (i : ℚ)) * (hi - lo)

/-- `np.percentile(values, percentile)`. -/
def npPercentile (values : List ℚ) (percentile : ℚ) : Except String ℚ :=
  if percentile < 0 ∨ 100 < percentile then
    .error "ValueError: Percentiles must be in the range [0, 100]"
  else if values.isEmpty then
    .error "IndexError: cannot do a non-empty take from an empty axes."
  else
    .ok (interpolate (values.mergeSort fun a b => decide (a ≤ b)) percentile)

/-- The `page_count` list comprehension: raises `KeyError` when a node
has no `page_count` attribute. -/
def collectPageCounts (g : Graph) : Except String (List ℚ) :=
  g.nodes.mapM fun n =>
    match (g.attrs n).page_count with
    | some c => .ok (c : ℚ)
    | none => .error "KeyError: page_count"

/-- `CategoryTree.page_count_percentile`. -/
def Graph.page_count_percentile (g : Graph) (percentile : ℚ) : Except String ℚ :=
  match collectPageCounts g with
  | .error e => .error e
  | .ok values => npPercentile values percentile

/-! ### Weakly connected components (`db/tree.py` 255-265)

`nx.weakly_connected_components` does an undirected breadth-first
search from each not-yet-seen node, in node iteration order; a
component is the set of nodes it reaches.  The search is embedded as a
saturation of the one-step undirected-neighbour expansion, iterated as
many times as there are nodes (enough to reach the fixpoint). -/

/-- Undirected adjacency: an edge in either direction. -/
def Graph.adjU (g : Graph) (a b : Nat) : Prop :=
  (a, b) ∈ g.edges ∨ (b, a) ∈ g.edges

instance (g : Graph) (a b : Nat) : Decidable (g.adjU a b) := by
  unfold Graph.adjU; infer_instance

/-- The node set as a finite set. -/
def Graph.nodesFinset (g : Graph) : Finset Nat := g.nodes.toFinset

/-- One breadth-first expansion step over undirected adjacency. -/
def Graph.uStep (g : Graph) (s : Finset Nat) : Finset Nat :=
  s ∪ g.nodesFinset.filter fun b => ∃ a ∈ s, g.adjU a b

/-- `k` expansion steps from a start node. -/
def Graph.uReachIter (g : Graph) (n : Nat) : Nat → Finset Nat
  | 0 => {n}
  | k + 1 => g.uStep (g.uReachIter n k)

/-- The weakly connected component of `n`: the saturated undirected
reachable set (`_plain_bfs` in `networkx`). -/
def Graph.comp (g : Graph) (n : Nat) : Finset Nat :=
  g.uReachIter n g.nodes.length

/-- `nx.weakly_connected_components`: walk the nodes in order, emitting
the component of each node not seen before. -/
def componentsAux (g : Graph) : List Nat → Finset Nat → List (Finset Nat)
  | [], _ => []
  | n :: rest, seen =>
      if n ∈ seen then componentsAux g rest seen
      else g.comp n :: componentsAux g rest (seen ∪ g.comp n)

/-- `CategoryTree.components`. -/
def Graph.components (g : Graph) : List (Finset Nat) :=
  componentsAux g g.nodes ∅

/-- Python `max(components, key=len)`: the first component of maximal
size (a later component replaces the best only when strictly larger). -/
def maxByLen (cs : List (Finset Nat)) : Option (Finset Nat) :=
  match cs with
  | [] => none
  | c :: rest => some (rest.foldl (fun best x => if best.card < x.card then x else best) c)

/-- `CategoryTree.keep_only_nodes`: plain removal of every node not in
the given set. -/
def Graph.keep_only_nodes (g : Graph) (s : Finset Nat) : Graph :=
  g.removeNodesFrom (g.nodes.filter fun n => decide (n ∉ s))

/-- `CategoryTree.keep_largest_component`; `max` on an empty component
sequence raises `ValueError`. -/
def Graph.keep_largest_component (g : Graph) : Except String Graph :=
  match maxByLen g.components with
  | none => .error "ValueError: max() arg is an empty sequence"
  | some largest => .ok (g.keep_only_nodes largest)

/-- Undirected reachability as an inductive relation; each step moves
through an undirected edge to a node of the graph. -/
inductive Graph.UReach (g : Graph) (n : Nat) : Nat → Prop
  | refl : Graph.UReach g n n
  | step {b c : Nat} : Graph.UReach g n b → g.adjU b c → c ∈ g.nodes → Graph.UReach g n c

/-! ### Depth-bounded trim (`db/tree.py` 250-253) -/

/-- The node set of `nx.bfs_tree(g, root, depth_limit=d)`: directed
breadth-first reachability within `d` hops. -/
def Graph.bfsWithin (g : Graph) (root : Nat) : Nat → Finset Nat
  | 0 => {root}
  | d + 1 =>
      let s := g.bfsWithin root d
      s ∪ g.nodesFinset.filter fun b => ∃ a ∈ s, (a, b) ∈ g.edges

/-- `CategoryTree.remove_past_depth`: delete every node not in the
depth-limited breadth-first tree; `nx.bfs_tree` raises when the root is
not a node. -/
def Graph.remove_past_depth (g : Graph) (root depth : Nat) : Except String Graph :=
  if root ∈ g.nodes then
    .ok (g.removeNodesFrom (g.nodes.filter fun n => decide (n ∉ g.bfsWithin root depth)))
  else .error "NetworkXError: source is not in G"

/-- Directed reachability from `root` within a bounded number of
hops. -/
inductive Graph.ReachWithin (g : Graph) (root : Nat) : Nat → Nat → Prop
  | refl (d : Nat) : Graph.ReachWithin g root root d
  | step {a b d} : Graph.ReachWithin g root a d → (a, b) ∈ g.edges →
      Graph.ReachWithin g root b (d + 1)

/-! ### Record extractors (`db/assets.py` 148-191)

The two table grammars are fixed regular expressions; each is embedded
as a deterministic matcher over character lists (every component of
these patterns is self-delimiting, and the alternations have disjoint
first characters, so Python's backtracking never diverges from the
greedy match on them).  `findall` scans left to right, emitting
non-overlapping matches and advancing one character after a failed
attempt, exactly as `re.findall` does. -/

namespace Assets

/-- `CategoryLinksEntry` of `db/assets.py`. -/
structure CategoryLinksEntry where
  cl_from : Nat
  cl_to : String
  is_article : Bool
deriving DecidableEq, Repr

/-- `PageTableEntry` of `db/assets.py`. -/
structure PageTableEntry where
  page_id : Nat
  page_title : Option String
  is_article : Bool
deriving DecidableEq, Repr

/-- The single-quote delimiter of the SQL string literals. -/
def quoteChar : Char := Char.ofNat 39

/-- The backslash escape character. -/
def backslashChar : Char := Char.ofNat 92

/-- Match a fixed literal. -/
def pLit (l : List Char) (cs : List Char) : Option (List Char) :=
  if cs.take l.length = l then some (cs.drop l.length) else none

/-- `\d+`: one or more digits, greedy. -/
def pInt (cs : List Char) : Option (List Char × List Char) :=
  let ds := cs.takeWhile Char.isDigit
  if ds.length = 0 then none else some (ds, cs.drop ds.length)

/-- The body of `'[^'\\]*(?:\\.[^'\\]*)*'` after the opening quote:
plain characters and backslash-escape pairs until the closing quote.
Returns the raw body (escapes still in place) and the rest. -/
def scanStr : List Char → Option (List Char × List Char)
  | [] => none
  | c :: cs =>
      if c = quoteChar then some ([], cs)
      else if c = backslashChar then
        match cs with
        | [] => none
        | d :: cs' =>
            match scanStr cs' with
            | some (b, r) => some (c :: d :: b, r)
            | none => none
      else
        match scanStr cs with
        | some (b, r) => some (c :: b, r)
        | none => none

/-- A full quoted string literal. -/
def pStr (cs : List Char) : Option (List Char × List Char) :=
  match cs with
  | [] => none
  | c :: rest => if c = quoteChar then scanStr rest else none

/-- `\d+\.\d+`. -/
def pFloat (cs : List Char) : Option (List Char) :=
  match pInt cs with
  | none => none
  | some (_, cs1) =>
      match pLit ['.'] cs1 with
      | none => none
      | some cs2 =>
          match pInt cs2 with
          | none => none
          | some (_, cs3) => some cs3

/-- A comma followed by an uncaptured string field. -/
def pCommaStr (cs : List Char) : Option (List Char) :=
  match pLit [','] cs with
  | none => none
  | some cs1 =>
      match pStr cs1 with
      | none => none
      | some (_, cs2) => some cs2

/-- A comma followed by an uncaptured integer field. -/
def pCommaInt (cs : List Char) : Option (List Char) :=
  match pLit [','] cs with
  | none => none
  | some cs1 =>
      match pInt cs1 with
      | none => none
      | some (_, cs2) => some cs2

/-- `ast.literal_eval` escape decoding for the captured string body:
the standard short escapes are decoded, an unknown escape keeps its
backslash. -/
def unescape : List Char → List Char
  | [] => []
  | [c] => [c]
  | c :: d :: rest =>
      if c = backslashChar then
        (if d = 'n' then [Char.ofNat 10]
         else if d = 't' then [Char.ofNat 9]
         else if d = 'r' then [Char.ofNat 13]
         else if d = '0' then [Char.ofNat 0]
         else if d = quoteChar ∨ d = '"' ∨ d = backslashChar then [d]
         else [c, d]) ++ unescape rest
      else c :: unescape (d :: rest)

/-- Base-10 value of a digit capture (`int(...)`). -/
def natOfDigits (ds : List Char) : Nat :=
  ds.foldl (fun acc d => 10 * acc + (d.toNat - 48)) 0

/-- The namespace alternation `((?:14)|(?:0))` with its capture. -/
def pNs (cs : List Char) : Option (List Char × List Char) :=
  match pLit ['1', '4'] cs with
  | some r => some (['1', '4'], r)
  | none =>
      match pLit ['0'] cs with
      | some r => some (['0'], r)
      | none => none

/-- The trailing `(?:'...'|NULL)` alternation. -/
def pTailNull (cs : List Char) : Option (List Char) :=
  match pStr cs with
  | some (_, r) => some r
  | none => pLit ['N', 'U', 'L', 'L'] cs

/-- One attempt of the `PageTable` pattern
`\((\d+),((?:14)|(?:0)),('...'),0,\d+,\d+\.\d+,'...','...',\d+,\d+,'...',(?:'...'|NULL)\)`
at the current position, returning the three captures and the rest. -/
def matchPage (cs0 : List Char) :
    Option ((List Char × List Char × List Char) × List Char) :=
  match pLit ['('] cs0 with
  | none => none
  | some cs1 =>
  match pInt cs1 with
  | none => none
  | some (pid, cs2) =>
  match pLit [','] cs2 with
  | none => none
  | some cs3 =>
  match pNs cs3 with
  | none => none
  | some (ns, cs4) =>
  match pLit [','] cs4 with
  | none => none
  | some cs5 =>
  match pStr cs5 with
  | none => none
  | some (title, cs6) =>
  match pLit [',', '0'] cs6 with
  | none => none
  | some cs7 =>
  match pCommaInt cs7 with
  | none => none
  | some cs8 =>
  match pLit [','] cs8 with
  | none => none
  | some cs9 =>
  match pFloat cs9 with
  | none => none
  | some cs10 =>
  match pCommaStr cs10 with
  | none => none
  | some cs11 =>
  match pCommaStr cs11 with
  | none => none
  | some cs12 =>
  match pCommaInt cs12 with
  | none => none
  | some cs13 =>
  match pCommaInt cs13 with
  | none => none
  | some cs14 =>
  match pCommaStr cs14 with
  | none => none
  | some cs15 =>
  match pLit [','] cs15 with
  | none => none
  | some cs16 =>
  match pTailNull cs16 with
  | none => none
  | some cs17 =>
  match pLit [')'] cs17 with
  | none => none
  | some cs18 => some ((pid, ns, title), cs18)

/-- `re.findall` scan for the page pattern. -/
def findallPage : Nat → List Char → List (List Char × List Char × List Char)
  | 0, _ => []
  | _ + 1, [] => []
  | fuel + 1, c :: rest =>
      match matchPage (c :: rest) with
      | some (h, rem) => h :: findallPage fuel rem
      | none => findallPage fuel rest

/-- `PageTable.entries` on one line: each match yields a record with
`is_article` iff the namespace capture is `0`; the title is decoded
only for category records. -/
def pageEntries (line : List Char) : List PageTableEntry :=
  (findallPage line.length line).map fun h =>
    { page_id := natOfDigits h.1
      page_title := if h.2.1 = ['0'] then none else some (String.mk (unescape h.2.2))
      is_article := decide (h.2.1 = ['0']) }

/-- The `((?:page)|(?:subcat))` alternation with its capture. -/
def pKind (cs : List Char) : Option (List Char × List Char) :=
  match pLit ['p', 'a', 'g', 'e'] cs with
  | some r => some (['p', 'a', 'g', 'e'], r)
  | none =>
      match pLit ['s', 'u', 'b', 'c', 'a', 't'] cs with
      | some r => some (['s', 'u', 'b', 'c', 'a', 't'], r)
      | none => none

/-- One attempt of the `CategoryLinksTable` pattern
`\((\d+),('...'),(?:'...',){4}'((?:page)|(?:subcat))'\)` at the current
position. -/
def matchCatLink (cs0 : List Char) :
    Option ((List Char × List Char × List Char) × List Char) :=
  match pLit ['('] cs0 with
  | none => none
  | some cs1 =>
  match pInt cs1 with
  | none => none
  | some (clfrom, cs2) =>
  match pLit [','] cs2 with
  | none => none
  | some cs3 =>
  match pStr cs3 with
  | none => none
  | some (clto, cs4) =>
  match pCommaStr cs4 with
  | none => none
  | some cs5 =>
  match pCommaStr cs5 with
  | none => none
  | some cs6 =>
  match pCommaStr cs6 with
  | none => none
  | some cs7 =>
  match pCommaStr cs7 with
  | none => none
  | some cs8 =>
  match pLit [',', quoteChar] cs8 with
  | none => none
  | some cs9 =>
  match pKind cs9 with
  | none => none
  | some (kind, cs10) =>
  match pLit [quoteChar, ')'] cs10 with
  | none => none
  | some cs11 => some ((clfrom, clto, kind), cs11)

/-- `re.findall` scan for the category-links pattern. -/
def findallCl : Nat → List Char → List (List Char × List Char × List Char)
  | 0, _ => []
  | _ + 1, [] => []
  | fuel + 1, c :: rest =>
      match matchCatLink (c :: rest) with
      | some (h, rem) => h :: findallCl fuel rem
      | none => findallCl fuel rest

/-- `CategoryLinksTable.entries` on one line: `is_article` iff the
trailing enum capture is `page`. -/
def clEntries (line : List Char) : List CategoryLinksEntry :=
  (findallCl line.length line).map fun h =>
    { cl_from := natOfDigits h.1
      cl_to := String.mk (unescape h.2.1)
      is_article := decide (h.2.2 = ['p', 'a', 'g', 'e']) }

end Assets

/-! ### Concrete fixtures used by the closed theorems -/

/-- Decode a line written with `#` standing for the single-quote
character of the dump format. -/
def ql (s : String) : List Char :=
  s.toList.map fun c => if c = '#' then Assets.quoteChar else c

/-- The literal page-table line of the claim, exactly as stated. -/
def lineC5 : List Char := ql "(1,#Foo#,0,0,1,0.0,#x#,#y#,0,0,#z#,NULL)"

/-- The page-table row with the namespace code 0 in its grammatical
place (second field). -/
def lineC5ns0 : List Char := ql "(1,0,#Foo#,0,1,0.0,#x#,#y#,0,0,#z#,NULL)"

/-- The page-table row with the namespace code 14 in its grammatical
place (second field). -/
def lineC5ns14 : List Char := ql "(1,14,#Foo#,0,1,0.0,#x#,#y#,0,0,#z#,NULL)"

/-- The literal category-links line of the claim, trailing `page`. -/
def lineC6page : List Char := ql "(5,#Bar#,0,0,0,0,#page#)"

/-- The literal category-links line of the claim, trailing `subcat`. -/
def lineC6subcat : List Char := ql "(5,#Bar#,0,0,0,0,#subcat#)"

/-- The category-links row with the four middle fields as quoted
strings, as the grammar requires, trailing `page`. -/
def lineC6pageOk : List Char := ql "(5,#Bar#,#a#,#b#,#c#,#d#,#page#)"

/-- The category-links row with the four middle fields as quoted
strings, trailing `subcat`. -/
def lineC6subcatOk : List Char := ql "(5,#Bar#,#a#,#b#,#c#,#d#,#subcat#)"

/-- Fixture for the reconstruction bypass check: edges 1→3, 2→3, 3→4. -/
def gTwoPreds : Graph := Graph.emptyG.add_edges_from [(1, 3), (2, 3), (3, 4)]

/-- Fixture for condition-based removal: the path 1→2→3. -/
def gPath123 : Graph := Graph.emptyG.add_edges_from [(1, 2), (2, 3)]

/-- Build-pass fixture: pages A(1) and B(2), the link B→parent A, and
an aggregate record for A only, so node 2 ends the pass without
attributes. -/
def pagesC3 : List Tree.PageTableEntry := [⟨1, "A"⟩, ⟨2, "B"⟩]

/-- Link records of the build-pass fixture. -/
def linksC3 : List Tree.CategoryLinksEntry := [⟨2, "A"⟩]

/-- Aggregate-count records of the build-pass fixture. -/
def catsC3 : List Tree.CategoryEntry := [⟨"A", 5, 1⟩]

end CatDb

namespace CatDb

/-! ## Theorems -/

/-! ### Membership lemmas for the primitive graph operations -/

theorem mem_nodes_addNode {g : Graph} {n m : Nat} :
    m ∈ (g.addNode n).nodes ↔ m ∈ g.nodes ∨ m = n := by
  unfold Graph.addNode
  by_cases h : n ∈ g.nodes
  · simp only [h, if_true]
    constructor
    · exact Or.inl
    · rintro (hm | rfl)
      · exact hm
      · exact h
  · simp [h]

theorem attrs_addNode {g : Graph} {n : Nat} : (g.addNode n).attrs = g.attrs := by
  unfold Graph.addNode
  by_cases h : n ∈ g.nodes <;> simp [h]

theorem edges_addNode {g : Graph} {n : Nat} : (g.addNode n).edges = g.edges := by
  unfold Graph.addNode
  by_cases h : n ∈ g.nodes <;> simp [h]

theorem mem_edges_addEdge {g : Graph} {p e : Nat × Nat} :
    e ∈ (g.addEdge p).edges ↔ e ∈ g.edges ∨ e = p := by
  unfold Graph.addEdge
  simp only [edges_addNode]
  by_cases h : p ∈ g.edges
  · simp only [h, if_true, edges_addNode]
    constructor
    · exact Or.inl
    · rintro (hm | rfl)
      · exact hm
      · exact h
  · simp [h, edges_addNode]

theorem mem_nodes_addEdge {g : Graph} {p : Nat × Nat} {m : Nat} :
    m ∈ (g.addEdge p).nodes ↔ m ∈ g.nodes ∨ m = p.1 ∨ m = p.2 := by
  unfold Graph.addEdge
  simp only [edges_addNode]
  by_cases h : p ∈ g.edges <;>
    simp [h, mem_nodes_addNode, or_assoc]

theorem attrs_addEdge {g : Graph} {p : Nat × Nat} : (g.addEdge p).attrs = g.attrs := by
  unfold Graph.addEdge
  simp only [edges_addNode]
  by_cases h : p ∈ g.edges <;>
    simp [h, attrs_addNode]

theorem mem_edges_add_edges_from {g : Graph} {es : List (Nat × Nat)} {e : Nat × Nat} :
    e ∈ (g.add_edges_from es).edges ↔ e ∈ g.edges ∨ e ∈ es := by
  induction es generalizing g with
  | nil => simp [Graph.add_edges_from]
  | cons p rest ih =>
      simp only [Graph.add_edges_from, List.foldl_cons] at *
      rw [ih, mem_edges_addEdge]
      simp [or_assoc]

theorem mem_nodes_add_edges_from {g : Graph} {es : List (Nat × Nat)} {m : Nat} :
    m ∈ (g.add_edges_from es).nodes ↔ m ∈ g.nodes ∨ ∃ p ∈ es, m = p.1 ∨ m = p.2 := by
  induction es generalizing g with
  | nil => simp [Graph.add_edges_from]
  | cons p rest ih =>
      simp only [Graph.add_edges_from, List.foldl_cons] at *
      rw [ih, mem_nodes_addEdge]
      constructor
      · rintro ((hm | rfl | rfl) | ⟨q, hq, hmq⟩)
        · exact Or.inl hm
        · exact Or.inr ⟨p, by simp⟩
        · exact Or.inr ⟨p, by simp⟩
        · exact Or.inr ⟨q, by simp [hq], hmq⟩
      · rintro (hm | ⟨q, hq, hmq⟩)
        · exact Or.inl (Or.inl hm)
        · rcases List.mem_cons.mp hq with rfl | hq'
          · exact Or.inl (Or.inr hmq)
          · exact Or.inr ⟨q, hq', hmq⟩

theorem attrs_add_edges_from {g : Graph} {es : List (Nat × Nat)} :
    (g.add_edges_from es).attrs = g.attrs := by
  induction es generalizing g with
  | nil => simp [Graph.add_edges_from]
  | cons p rest ih =>
      simp only [Graph.add_edges_from, List.foldl_cons] at *
      rw [ih, attrs_addEdge]

theorem mem_nodes_removeNode {g : Graph} {n m : Nat} :
    m ∈ (g.removeNode n).nodes ↔ m ∈ g.nodes ∧ m ≠ n := by
  simp [Graph.removeNode]

theorem mem_edges_removeNode {g : Graph} {n : Nat} {e : Nat × Nat} :
    e ∈ (g.removeNode n).edges ↔ e ∈ g.edges ∧ e.1 ≠ n ∧ e.2 ≠ n := by
  simp [Graph.removeNode]

theorem mem_nodes_removeNodesFrom {g : Graph} {l : List Nat} {m : Nat} :
    m ∈ (g.removeNodesFrom l).nodes ↔ m ∈ g.nodes ∧ m ∉ l := by
  induction l generalizing g with
  | nil => simp [Graph.removeNodesFrom]
  | cons n rest ih =>
      simp only [Graph.removeNodesFrom, List.foldl_cons] at *
      rw [ih, mem_nodes_removeNode]
      constructor
      · rintro ⟨⟨hm, hne⟩, hrest⟩
        exact ⟨hm, by simp [hne, hrest]⟩
      · rintro ⟨hm, hnl⟩
        simp only [List.mem_cons, not_or] at hnl
        exact ⟨⟨hm, hnl.1⟩, hnl.2⟩

theorem mem_edges_removeNodesFrom {g : Graph} {l : List Nat} {e : Nat × Nat} :
    e ∈ (g.removeNodesFrom l).edges ↔ e ∈ g.edges ∧ e.1 ∉ l ∧ e.2 ∉ l := by
  induction l generalizing g with
  | nil => simp [Graph.removeNodesFrom]
  | cons n rest ih =>
      simp only [Graph.removeNodesFrom, List.foldl_cons] at *
      rw [ih, mem_edges_removeNode]
      constructor
      · rintro ⟨⟨he, h1, h2⟩, r1, r2⟩
        exact ⟨he, by simp [h1, r1], by simp [h2, r2]⟩
      · rintro ⟨he, h1, h2⟩
        simp only [List.mem_cons, not_or] at h1 h2
        exact ⟨⟨he, h1.1, h2.1⟩, h1.2, h2.2⟩

/-! ### Claim theorems C1, C2 -/

/-- C1: `remove_node_reconstruct` does not insert the full bypass edge
set `{(p, s) : p ∈ P, s ∈ S}`.  On the graph with edges 1→3, 2→3, 3→4
both two-hop paths 1→3→4 and 2→3→4 are present, yet after
`remove_node_reconstruct(3)` only the bypass edge (1,4) exists and
(2,4) does not: the successors iterator is exhausted after the first
predecessor, so the two-hop path through the second predecessor is not
preserved, contradicting the claim. -/
theorem remove_node_reconstruct_drops_second_predecessor :
    (1, 3) ∈ gTwoPreds.edges ∧ (3, 4) ∈ gTwoPreds.edges ∧
    (2, 3) ∈ gTwoPreds.edges ∧
    (1, 4) ∈ (gTwoPreds.remove_node_reconstruct 3).edges ∧
    (2, 4) ∉ (gTwoPreds.remove_node_reconstruct 3).edges := by
  decide

/-- C2: `remove_by_condition` accepts no `reconstruct` flag and always
removes reconstructively.  On the path 1→2→3 with the predicate true
exactly on node 2 (the call `main.py` makes with `reconstruct=False`,
expecting a plain deletion with no bypass edges), the code produces the
bypass edge (1,3). -/
theorem remove_by_condition_always_reconstructs :
    (1, 3) ∈ (gPath123.remove_by_condition fun n _ => n == 2).edges ∧
    2 ∉ (gPath123.remove_by_condition fun n _ => n == 2).nodes := by
  decide

/-! ### Claim theorems C3, C10 -/

/-- The all-or-nothing attribute invariant, preserved by every step of
the attribute-assignment loop. -/
def attrsOk (a : NodeAttrs) : Prop :=
  a = NodeAttrs.emptyA ∨ (a.name.isSome ∧ a.page_count.isSome)

theorem attrsOk_foldl_attrStep (pages : List Tree.PageTableEntry)
    (l : List (Nat × Int)) (g : Graph)
    (h : ∀ n, attrsOk (g.attrs n)) :
    ∀ n, attrsOk ((l.foldl (Tree.attrStep pages) g).attrs n) := by
  induction l generalizing g with
  | nil => simpa using h
  | cons p rest ih =>
      simp only [List.foldl_cons]
      refine ih _ fun n => ?_
      unfold Tree.attrStep
      cases (Tree.id_to_name pages).lookup p.1 with
      | none => exact h n
      | some nm =>
          by_cases hp : p.1 ∈ g.nodes
          · simp only [hp, if_true, Tree.setBothAttrs]
            by_cases hn : n = p.1
            · subst hn; simp [attrsOk]
            · simpa [hn] using h n
          · simpa [hp] using h n

theorem attrsOk_build_attr_phase (pages : List Tree.PageTableEntry)
    (links : List Tree.CategoryLinksEntry) (cats : List Tree.CategoryEntry) :
    ∀ n, attrsOk ((Tree.build_attr_phase pages links cats).attrs n) := by
  unfold Tree.build_attr_phase
  refine attrsOk_foldl_attrStep _ _ _ fun n => ?_
  rw [attrs_add_edges_from]
  exact Or.inl rfl

/-- C10: after the build pass's attribute-assignment phase every node
carries either both the `name` and `page_count` attributes or neither,
and the `not self.nodes[n]` emptiness check holds exactly for the nodes
missing the full attribute pair. -/
theorem build_attrs_all_or_nothing (pages : List Tree.PageTableEntry)
    (links : List Tree.CategoryLinksEntry) (cats : List Tree.CategoryEntry) (n : Nat) :
    (((Tree.build_attr_phase pages links cats).attrs n).name.isSome ↔
      ((Tree.build_attr_phase pages links cats).attrs n).page_count.isSome) ∧
    ((Tree.build_attr_phase pages links cats).attrs n = NodeAttrs.emptyA ↔
      ¬(((Tree.build_attr_phase pages links cats).attrs n).name.isSome ∧
        ((Tree.build_attr_phase pages links cats).attrs n).page_count.isSome)) := by
  rcases attrsOk_build_attr_phase pages links cats n with h | ⟨h1, h2⟩
  · rw [h]
    refine ⟨Iff.rfl, ?_⟩
    simp [NodeAttrs.emptyA]
  · constructor
    · rw [h1, h2]
    · constructor
      · intro he
        rw [he] at h1
        simp [NodeAttrs.emptyA] at h1
      · intro hc
        exact absurd ⟨h1, h2⟩ hc

/-- C3: on the build fixture, node 2 ends the attribute phase with an
empty attribute dictionary while being a node of the graph, and
`add_assets` then raises `RuntimeError` instead of completing: the
cleanup loop removes node 2 from the node dictionary it is iterating
over.  This contradicts the claim that the build pass never crashes on
attribute-less nodes. -/
theorem add_assets_crashes_on_attributeless_node :
    2 ∈ (Tree.build_attr_phase pagesC3 linksC3 catsC3).nodes ∧
    (Tree.build_attr_phase pagesC3 linksC3 catsC3).attrs 2 = NodeAttrs.emptyA ∧
    Tree.add_assets pagesC3 linksC3 catsC3 =
      .error "RuntimeError: dictionary changed size during iteration" :=
  ⟨by decide, by decide, by rfl⟩

/-! ### Claim theorem C4: snapshot round trip -/

theorem mem_nodes_foldl_addNode {L : List Nat} {g : Graph} {m : Nat} :
    m ∈ (L.foldl Graph.addNode g).nodes ↔ m ∈ g.nodes ∨ m ∈ L := by
  induction L generalizing g with
  | nil => simp
  | cons n rest ih =>
      simp only [List.foldl_cons]
      rw [ih, mem_nodes_addNode]
      simp [or_assoc]

theorem attrs_foldl_addNode {L : List Nat} {g : Graph} :
    (L.foldl Graph.addNode g).attrs = g.attrs := by
  induction L generalizing g with
  | nil => simp
  | cons n rest ih =>
      simp only [List.foldl_cons]
      rw [ih, attrs_addNode]

theorem edges_foldl_addNode {L : List Nat} {g : Graph} :
    (L.foldl Graph.addNode g).edges = g.edges := by
  induction L generalizing g with
  | nil => simp
  | cons n rest ih =>
      simp only [List.foldl_cons]
      rw [ih, edges_addNode]

theorem attrs_setNodeData {g : Graph} {p : Nat × NodeAttrs} {m : Nat} :
    (setNodeData g p).attrs m = if m = p.1 then p.2 else g.attrs m := by
  by_cases h : m = p.1 <;> simp [setNodeData, h, attrs_addNode]

theorem edges_setNodeData {g : Graph} {p : Nat × NodeAttrs} :
    (setNodeData g p).edges = g.edges := by
  simp [setNodeData, edges_addNode]

theorem mem_nodes_setNodeData {g : Graph} {p : Nat × NodeAttrs} {m : Nat} :
    m ∈ (setNodeData g p).nodes ↔ m ∈ g.nodes ∨ m = p.1 := by
  simp [setNodeData, mem_nodes_addNode]

theorem edges_foldl_setNodeData {L : List (Nat × NodeAttrs)} {g : Graph} :
    (L.foldl setNodeData g).edges = g.edges := by
  induction L generalizing g with
  | nil => simp
  | cons p rest ih =>
      simp only [List.foldl_cons]
      rw [ih, edges_setNodeData]

theorem mem_nodes_foldl_setNodeData {L : List (Nat × NodeAttrs)} {g : Graph} {m : Nat} :
    m ∈ (L.foldl setNodeData g).nodes ↔ m ∈ g.nodes ∨ m ∈ L.map Prod.fst := by
  induction L generalizing g with
  | nil => simp
  | cons p rest ih =>
      simp only [List.foldl_cons, List.map_cons]
      rw [ih, mem_nodes_setNodeData]
      simp [or_assoc]

theorem attrs_foldl_setNodeData_of_notmem {L : List (Nat × NodeAttrs)} {g : Graph} {n : Nat}
    (h : n ∉ L.map Prod.fst) :
    (L.foldl setNodeData g).attrs n = g.attrs n := by
  induction L generalizing g with
  | nil => simp
  | cons p rest ih =>
      simp only [List.map_cons, List.mem_cons, not_or] at h
      simp only [List.foldl_cons]
      rw [ih h.2, attrs_setNodeData, if_neg h.1]

theorem attrs_foldl_setNodeData {L : List (Nat × NodeAttrs)} {g : Graph} {n : Nat}
    {v : NodeAttrs} (hall : ∀ p ∈ L, p.1 = n → p.2 = v) (hmem : n ∈ L.map Prod.fst) :
    (L.foldl setNodeData g).attrs n = v := by
  induction L generalizing g with
  | nil => simp at hmem
  | cons p rest ih =>
      simp only [List.foldl_cons]
      by_cases hr : n ∈ rest.map Prod.fst
      · exact ih (fun q hq => hall q (List.mem_cons_of_mem p hq)) hr
      · have hp : p.1 = n := by
          rcases List.mem_cons.mp hmem with h | h
          · exact h.symm
          · exact absurd h hr
        rw [attrs_foldl_setNodeData_of_notmem hr, attrs_setNodeData, if_pos hp.symm]
        exact hall p (List.mem_cons_self p rest) hp

/-- C4: for every well-formed graph, deserializing the serialized
snapshot yields a graph with the same node set, the same attribute
values on every node, and the same edge set. -/
theorem serialize_roundtrip (g : Graph) (hw : g.WF) :
    (∀ n, n ∈ (deserialize g.serialize).nodes ↔ n ∈ g.nodes) ∧
    (∀ n, n ∈ g.nodes → (deserialize g.serialize).attrs n = g.attrs n) ∧
    (∀ e, e ∈ (deserialize g.serialize).edges ↔ e ∈ g.edges) := by
  have hkeys : (g.serialize.nodeData.map Prod.fst) = g.nodes := by
    simp only [Graph.serialize, List.map_map]
    exact List.map_id'' (fun n => rfl) _
  refine ⟨fun n => ?_, fun n hn => ?_, fun e => ?_⟩
  · unfold deserialize
    rw [mem_nodes_foldl_setNodeData, mem_nodes_add_edges_from, mem_nodes_foldl_addNode,
      hkeys]
    simp only [Graph.emptyG, List.not_mem_nil, false_or]
    constructor
    · rintro ((hn | ⟨p, hp, hend⟩) | hn)
      · exact hn
      · rcases hw p hp with ⟨h1, h2⟩
        rcases hend with rfl | rfl
        · exact h1
        · exact h2
      · exact hn
    · exact fun hn => Or.inl (Or.inl hn)
  · unfold deserialize
    rw [attrs_foldl_setNodeData (v := g.attrs n) ?_ ?_]
    · intro p hp hpn
      simp only [Graph.serialize, List.mem_map] at hp
      rcases hp with ⟨m, _, rfl⟩
      simp only at hpn
      rw [hpn]
    · rw [hkeys]; exact hn
  · unfold deserialize
    rw [edges_foldl_setNodeData, mem_edges_add_edges_from, edges_foldl_addNode]
    simp [Graph.emptyG, Graph.serialize]

/-- Round-trip witness graph: nodes 1 (name A, page count 3) and 2
(name B, page count 0) with the edge 1→2. -/
def gC4 : Graph :=
  setNodeData (setNodeData (Graph.emptyG.add_edges_from [(1, 2)])
    (1, ⟨some "A", some 3⟩)) (2, ⟨some "B", some 0⟩)

/-- Witness for C4 at the concrete graph `gC4`. -/
theorem serialize_roundtrip_witness :
    gC4.WF ∧
    ((∀ n, n ∈ (deserialize gC4.serialize).nodes ↔ n ∈ gC4.nodes) ∧
     (∀ n, n ∈ gC4.nodes → (deserialize gC4.serialize).attrs n = gC4.attrs n) ∧
     (∀ e, e ∈ (deserialize gC4.serialize).edges ↔ e ∈ gC4.edges)) :=
  ⟨by decide, serialize_roundtrip gC4 (by decide)⟩

/-! ### Claim theorem C7: empty-graph operations fail explicitly -/

/-- C7: on a graph with zero nodes, `page_count_percentile` raises
(numpy cannot take a percentile of an empty sequence) and
`keep_largest_component` raises (`max` of an empty component
sequence), for every requested percentile. -/
theorem empty_graph_operations_error (g : Graph) (percentile : ℚ) (h : g.nodes = []) :
    (∃ e, g.page_count_percentile percentile = .error e) ∧
    (∃ e, g.keep_largest_component = .error e) := by
  constructor
  · unfold Graph.page_count_percentile collectPageCounts
    rw [h]
    simp only [List.mapM_nil]
    unfold npPercentile
    by_cases hp : percentile < 0 ∨ 100 < percentile
    · exact ⟨"ValueError: Percentiles must be in the range [0, 100]",
        by simp [hp, pure, Except.pure]⟩
    · exact ⟨"IndexError: cannot do a non-empty take from an empty axes.",
        by simp [hp, pure, Except.pure, List.isEmpty]⟩
  · unfold Graph.keep_largest_component Graph.components
    rw [h]
    exact ⟨_, rfl⟩

/-- Witness for C7 at the empty graph and percentile 50. -/
theorem empty_graph_operations_error_witness :
    Graph.emptyG.nodes = [] ∧
    ((∃ e, Graph.emptyG.page_count_percentile 50 = .error e) ∧
     (∃ e, Graph.emptyG.keep_largest_component = .error e)) :=
  ⟨rfl, empty_graph_operations_error Graph.emptyG 50 rfl⟩

/-! ### Claim theorem C8: depth-bounded trim -/

theorem reachWithin_mono {g : Graph} {root m d : Nat}
    (h : g.ReachWithin root m d) : g.ReachWithin root m (d + 1) := by
  induction h with
  | refl => exact Graph.ReachWithin.refl _
  | step _ he ih => exact Graph.ReachWithin.step ih he

theorem root_mem_bfsWithin {g : Graph} {root : Nat} (d : Nat) :
    root ∈ g.bfsWithin root d := by
  induction d with
  | zero => simp [Graph.bfsWithin]
  | succ d ih =>
      unfold Graph.bfsWithin
      exact Finset.mem_union_left _ ih

theorem bfsWithin_sound {g : Graph} {root d m : Nat}
    (h : m ∈ g.bfsWithin root d) : g.ReachWithin root m d := by
  induction d generalizing m with
  | zero =>
      simp only [Graph.bfsWithin, Finset.mem_singleton] at h
      subst h
      exact Graph.ReachWithin.refl 0
  | succ d ih =>
      unfold Graph.bfsWithin at h
      rcases Finset.mem_union.mp h with hs | hf
      · exact reachWithin_mono (ih hs)
      · rcases Finset.mem_filter.mp hf with ⟨_, a, ha, hedge⟩
        exact Graph.ReachWithin.step (ih ha) hedge

/-- C8: for every graph containing `root` and every depth bound,
`remove_past_depth` succeeds, `root` survives, and every surviving node
is reachable from `root` via directed edges within `depth` hops. -/
theorem remove_past_depth_sound (g : Graph) (root depth : Nat) (h : root ∈ g.nodes) :
    ∃ g', g.remove_past_depth root depth = .ok g' ∧ root ∈ g'.nodes ∧
      ∀ n ∈ g'.nodes, g.ReachWithin root n depth := by
  unfold Graph.remove_past_depth
  rw [if_pos h]
  refine ⟨_, rfl, ?_, ?_⟩
  · rw [mem_nodes_removeNodesFrom]
    refine ⟨h, fun hc => ?_⟩
    rcases List.mem_filter.mp hc with ⟨_, hb⟩
    exact (of_decide_eq_true hb) (root_mem_bfsWithin depth)
  · intro n hn
    rcases mem_nodes_removeNodesFrom.mp hn with ⟨hng, hnf⟩
    by_cases hb : n ∈ g.bfsWithin root depth
    · exact bfsWithin_sound hb
    · exact absurd (List.mem_filter.mpr ⟨hng, decide_eq_true hb⟩) hnf

/-- Witness for C8 on the path 1→2→3 with root 1 and depth 1. -/
theorem remove_past_depth_sound_witness :
    1 ∈ gPath123.nodes ∧
    (∃ g', gPath123.remove_past_depth 1 1 = .ok g' ∧ 1 ∈ g'.nodes ∧
      ∀ n ∈ g'.nodes, gPath123.ReachWithin 1 n 1) :=
  ⟨by decide, remove_past_depth_sound gPath123 1 1 (by decide)⟩

/-! ### Claim theorem C9: largest-component retention is idempotent

The proof goes through the saturation of the undirected expansion: the
iterated expansion stabilises within `|nodes|` steps, the saturated set
is exactly the inductive undirected reachability closure, a component
is closed under undirected adjacency, and the induced subgraph on the
retained component is therefore a single component of itself. -/

theorem uStep_subset_self {g : Graph} {s : Finset Nat} : s ⊆ g.uStep s :=
  Finset.subset_union_left

theorem uReachIter_subset_nodes {g : Graph} {n : Nat} (hn : n ∈ g.nodes) (k : Nat) :
    g.uReachIter n k ⊆ g.nodesFinset := by
  induction k with
  | zero =>
      intro m hm
      simp only [Graph.uReachIter, Finset.mem_singleton] at hm
      subst hm
      exact List.mem_toFinset.mpr hn
  | succ k ih =>
      intro m hm
      rcases Finset.mem_union.mp hm with h | h
      · exact ih h
      · exact (Finset.mem_filter.mp h).1

theorem mem_self_uReachIter {g : Graph} {n : Nat} (k : Nat) : n ∈ g.uReachIter n k := by
  induction k with
  | zero => simp [Graph.uReachIter]
  | succ k ih => exact uStep_subset_self ih

theorem uReachIter_stab_ge {g : Graph} {n j : Nat}
    (h : g.uReachIter n j = g.uReachIter n (j + 1)) :
    ∀ k, j ≤ k → g.uReachIter n k = g.uReachIter n j := by
  intro k hk
  induction k with
  | zero =>
      have : j = 0 := Nat.le_zero.mp hk
      subst this; rfl
  | succ k ih =>
      rcases Nat.lt_or_ge j (k + 1) with hlt | hge
      · have hjk : j ≤ k := Nat.lt_succ_iff.mp hlt
        have hk' := ih hjk
        show g.uStep (g.uReachIter n k) = _
        rw [hk']
        exact h.symm
      · have : j = k + 1 := Nat.le_antisymm hk hge
        subst this; rfl

theorem uReachIter_card_lb (g : Graph) (n : Nat) :
    ∀ k, (∀ j, j < k → g.uReachIter n j ≠ g.uReachIter n (j + 1)) →
      k + 1 ≤ (g.uReachIter n k).card := by
  intro k
  induction k with
  | zero => intro _; simp [Graph.uReachIter]
  | succ k ih =>
      intro h
      have h1 := ih fun j hj => h j (Nat.lt_succ_of_lt hj)
      have hne := h k (Nat.lt_succ_self k)
      have hss : g.uReachIter n k ⊂ g.uReachIter n (k + 1) :=
        Finset.ssubset_iff_subset_ne.mpr ⟨uStep_subset_self, hne⟩
      have := Finset.card_lt_card hss
      omega

theorem comp_stab {g : Graph} {n : Nat} (hn : n ∈ g.nodes) :
    g.uStep (g.comp n) = g.comp n := by
  by_cases hstab : ∃ j, j < g.nodes.length ∧ g.uReachIter n j = g.uReachIter n (j + 1)
  · obtain ⟨j, hj, hstabj⟩ := hstab
    have h1 := uReachIter_stab_ge hstabj g.nodes.length (le_of_lt hj)
    have h2 := uReachIter_stab_ge hstabj (g.nodes.length + 1) (by omega)
    show g.uStep (g.uReachIter n g.nodes.length) = g.uReachIter n g.nodes.length
    calc g.uStep (g.uReachIter n g.nodes.length)
        = g.uReachIter n (g.nodes.length + 1) := rfl
      _ = g.uReachIter n j := h2
      _ = g.uReachIter n g.nodes.length := h1.symm
  · push_neg at hstab
    have hlb := uReachIter_card_lb g n g.nodes.length hstab
    have hub : (g.uReachIter n g.nodes.length).card ≤ g.nodes.length :=
      le_trans (Finset.card_le_card (uReachIter_subset_nodes hn g.nodes.length))
        (List.toFinset_card_le _)
    omega

theorem mem_comp_self {g : Graph} (n : Nat) : n ∈ g.comp n :=
  mem_self_uReachIter _

theorem comp_subset_nodes {g : Graph} {n : Nat} (hn : n ∈ g.nodes) :
    g.comp n ⊆ g.nodesFinset :=
  uReachIter_subset_nodes hn _

theorem comp_closed {g : Graph} {n b c : Nat} (hn : n ∈ g.nodes)
    (hb : b ∈ g.comp n) (hadj : g.adjU b c) (hc : c ∈ g.nodes) : c ∈ g.comp n := by
  have : c ∈ g.uStep (g.comp n) :=
    Finset.mem_union_right _ (Finset.mem_filter.mpr
      ⟨List.mem_toFinset.mpr hc, b, hb, hadj⟩)
  rwa [comp_stab hn] at this

theorem uReachIter_sound {g : Graph} {n k m : Nat}
    (h : m ∈ g.uReachIter n k) : g.UReach n m := by
  induction k generalizing m with
  | zero =>
      simp only [Graph.uReachIter, Finset.mem_singleton] at h
      subst h
      exact Graph.UReach.refl
  | succ k ih =>
      rcases Finset.mem_union.mp h with h' | h'
      · exact ih h'
      · rcases Finset.mem_filter.mp h' with ⟨hm, a, ha, hadj⟩
        exact Graph.UReach.step (ih ha) hadj (List.mem_toFinset.mp hm)

theorem uReach_mem_comp {g : Graph} {n m : Nat} (hn : n ∈ g.nodes)
    (h : g.UReach n m) : m ∈ g.comp n := by
  induction h with
  | refl => exact mem_comp_self n
  | step _ hadj hc ih => exact comp_closed hn ih hadj hc

theorem mem_comp_iff {g : Graph} {n m : Nat} (hn : n ∈ g.nodes) :
    m ∈ g.comp n ↔ g.UReach n m :=
  ⟨uReachIter_sound, uReach_mem_comp hn⟩

theorem uReach_mem_nodes {g : Graph} {n m : Nat} (hn : n ∈ g.nodes)
    (h : g.UReach n m) : m ∈ g.nodes := by
  induction h with
  | refl => exact hn
  | step _ _ hc _ => exact hc

theorem uReach_trans {g : Graph} {a b c : Nat} (h1 : g.UReach a b)
    (h2 : g.UReach b c) : g.UReach a c := by
  induction h2 with
  | refl => exact h1
  | step _ hadj hc ih => exact Graph.UReach.step ih hadj hc

theorem adjU_symm {g : Graph} {a b : Nat} (h : g.adjU a b) : g.adjU b a :=
  h.elim Or.inr Or.inl

theorem uReach_symm {g : Graph} {a b : Nat} (ha : a ∈ g.nodes)
    (h : g.UReach a b) : g.UReach b a := by
  induction h with
  | refl => exact Graph.UReach.refl
  | @step b' c' hab hadj _ ih =>
      have hb' : b' ∈ g.nodes := uReach_mem_nodes ha hab
      exact uReach_trans (Graph.UReach.step Graph.UReach.refl (adjU_symm hadj) hb') ih

theorem componentsAux_mem {g : Graph} {l : List Nat} {seen : Finset Nat}
    {C : Finset Nat} (h : C ∈ componentsAux g l seen) : ∃ m ∈ l, C = g.comp m := by
  induction l generalizing seen with
  | nil => simp [componentsAux] at h
  | cons n rest ih =>
      unfold componentsAux at h
      by_cases hn : n ∈ seen
      · rw [if_pos hn] at h
        obtain ⟨m, hm, hC⟩ := ih h
        exact ⟨m, List.mem_cons_of_mem n hm, hC⟩
      · rw [if_neg hn] at h
        rcases List.mem_cons.mp h with rfl | h'
        · exact ⟨n, List.mem_cons_self n rest, rfl⟩
        · obtain ⟨m, hm, hC⟩ := ih h'
          exact ⟨m, List.mem_cons_of_mem n hm, hC⟩

theorem componentsAux_eq_nil {g : Graph} {l : List Nat} {seen : Finset Nat}
    (h : ∀ m ∈ l, m ∈ seen) : componentsAux g l seen = [] := by
  induction l with
  | nil => rfl
  | cons n rest ih =>
      unfold componentsAux
      rw [if_pos (h n (List.mem_cons_self n rest))]
      exact ih fun m hm => h m (List.mem_cons_of_mem n hm)

theorem foldl_maxByLen_mem (rest : List (Finset Nat)) :
    ∀ c : Finset Nat,
      rest.foldl (fun best x => if best.card < x.card then x else best) c ∈ c :: rest := by
  induction rest with
  | nil => intro c; simp
  | cons x rest ih =>
      intro c
      simp only [List.foldl_cons]
      by_cases h : c.card < x.card
      · rw [if_pos h]
        rcases List.mem_cons.mp (ih x) with h' | h'
        · simp [h']
        · exact List.mem_cons_of_mem c (List.mem_cons_of_mem x h')
      · rw [if_neg h]
        rcases List.mem_cons.mp (ih c) with h' | h'
        · simp [h']
        · exact List.mem_cons_of_mem c (List.mem_cons_of_mem x h')

theorem maxByLen_mem {cs : List (Finset Nat)} {C : Finset Nat}
    (h : maxByLen cs = some C) : C ∈ cs := by
  cases cs with
  | nil => simp [maxByLen] at h
  | cons c rest =>
      simp only [maxByLen, Option.some.injEq] at h
      rw [← h]
      exact foldl_maxByLen_mem rest c

theorem mem_nodes_keep_only {g : Graph} {s : Finset Nat} {m : Nat} :
    m ∈ (g.keep_only_nodes s).nodes ↔ m ∈ g.nodes ∧ m ∈ s := by
  unfold Graph.keep_only_nodes
  rw [mem_nodes_removeNodesFrom]
  constructor
  · rintro ⟨hm, hf⟩
    by_cases hs : m ∈ s
    · exact ⟨hm, hs⟩
    · exact absurd (List.mem_filter.mpr ⟨hm, decide_eq_true hs⟩) hf
  · rintro ⟨hm, hs⟩
    refine ⟨hm, fun hf => ?_⟩
    exact (of_decide_eq_true (List.mem_filter.mp hf).2) hs

theorem mem_edges_keep_only_of {g : Graph} {s : Finset Nat} {e : Nat × Nat}
    (he : e ∈ g.edges) (h1 : e.1 ∈ s) (h2 : e.2 ∈ s) :
    e ∈ (g.keep_only_nodes s).edges := by
  unfold Graph.keep_only_nodes
  rw [mem_edges_removeNodesFrom]
  refine ⟨he, fun hf => ?_, fun hf => ?_⟩
  · exact (of_decide_eq_true (List.mem_filter.mp hf).2) h1
  · exact (of_decide_eq_true (List.mem_filter.mp hf).2) h2

theorem keep_only_nodes_id {g : Graph} {s : Finset Nat}
    (h : ∀ m ∈ g.nodes, m ∈ s) : g.keep_only_nodes s = g := by
  unfold Graph.keep_only_nodes
  have : g.nodes.filter (fun n => decide (n ∉ s)) = [] := by
    rw [List.filter_eq_nil_iff]
    intro m hm
    simp [h m hm]
  rw [this]
  rfl

theorem uReach_transfer {g : Graph} {m0 : Nat} (hm0 : m0 ∈ g.nodes) {a c : Nat}
    (ha : a ∈ g.comp m0) (h : g.UReach a c) :
    (g.keep_only_nodes (g.comp m0)).UReach a c := by
  induction h with
  | refl => exact Graph.UReach.refl
  | @step b' c' hab hadj hcn ih =>
      have hb' : b' ∈ g.comp m0 :=
        (mem_comp_iff hm0).mpr (uReach_trans ((mem_comp_iff hm0).mp ha) hab)
      have hc' : c' ∈ g.comp m0 := comp_closed hm0 hb' hadj hcn
      have hadj' : (g.keep_only_nodes (g.comp m0)).adjU b' c' := by
        rcases hadj with he | he
        · exact Or.inl (mem_edges_keep_only_of he hb' hc')
        · exact Or.inr (mem_edges_keep_only_of he hc' hb')
      exact Graph.UReach.step ih hadj' (mem_nodes_keep_only.mpr ⟨hcn, hc'⟩)

theorem comp_keep_eq {g : Graph} {m0 m1 : Nat} (hm0 : m0 ∈ g.nodes)
    (hm1 : m1 ∈ (g.keep_only_nodes (g.comp m0)).nodes) :
    (g.keep_only_nodes (g.comp m0)).comp m1 = g.comp m0 := by
  have hm1n : m1 ∈ g.nodes := (mem_nodes_keep_only.mp hm1).1
  have hm1c : m1 ∈ g.comp m0 := (mem_nodes_keep_only.mp hm1).2
  apply Finset.Subset.antisymm
  · intro x hx
    have hxn := comp_subset_nodes hm1 hx
    exact (mem_nodes_keep_only.mp (List.mem_toFinset.mp hxn)).2
  · intro x hx
    have hr0x : g.UReach m0 x := (mem_comp_iff hm0).mp hx
    have hr01 : g.UReach m0 m1 := (mem_comp_iff hm0).mp hm1c
    have hr1x : g.UReach m1 x := uReach_trans (uReach_symm hm0 hr01) hr0x
    have := uReach_transfer hm0 hm1c hr1x
    exact (mem_comp_iff hm1).mpr this

theorem keep_largest_component_of_components {g : Graph} {C : Finset Nat}
    (h : maxByLen g.components = some C) :
    g.keep_largest_component = .ok (g.keep_only_nodes C) := by
  unfold Graph.keep_largest_component
  rw [h]

/-- C9: for every non-empty graph, `keep_largest_component` succeeds
and its result is a fixed point of `keep_largest_component`; in
particular applying it twice yields the same node set as applying it
once. -/
theorem keep_largest_component_idempotent (g : Graph) (h : g.nodes ≠ []) :
    ∃ g1, g.keep_largest_component = .ok g1 ∧ g1.keep_largest_component = .ok g1 := by
  obtain ⟨n0, rest0, hcons⟩ := List.exists_cons_of_ne_nil h
  have hcompostail : g.components = g.comp n0 :: componentsAux g rest0 (∅ ∪ g.comp n0) := by
    unfold Graph.components
    rw [hcons]
    simp only [componentsAux]
    rw [if_neg (Finset.not_mem_empty n0)]
  obtain ⟨C, hC⟩ : ∃ C, maxByLen g.components = some C := by
    rw [hcompostail]
    exact ⟨_, rfl⟩
  obtain ⟨m0, hm0, rfl⟩ := componentsAux_mem (l := g.nodes)
    (maxByLen_mem (by rwa [Graph.components] at hC))
  set g1 := g.keep_only_nodes (g.comp m0) with hg1
  refine ⟨g1, keep_largest_component_of_components hC, ?_⟩
  have hsub1 : ∀ m ∈ g1.nodes, m ∈ g.comp m0 := fun m hm =>
    (mem_nodes_keep_only.mp hm).2
  have hm0g1 : m0 ∈ g1.nodes :=
    mem_nodes_keep_only.mpr ⟨hm0, mem_comp_self m0⟩
  obtain ⟨m1, rest1, hcons1⟩ :=
    List.exists_cons_of_ne_nil (List.ne_nil_of_mem hm0g1)
  have hm1g1 : m1 ∈ g1.nodes := by rw [hcons1]; exact List.mem_cons_self m1 rest1
  have hcompg1 : g1.comp m1 = g.comp m0 := comp_keep_eq hm0 hm1g1
  have hcomps1 : g1.components = [g1.comp m1] := by
    unfold Graph.components
    rw [hcons1]
    simp only [componentsAux]
    rw [if_neg (Finset.not_mem_empty m1)]
    congr 1
    refine componentsAux_eq_nil fun m hm => ?_
    have hmg1 : m ∈ g1.nodes := by rw [hcons1]; exact List.mem_cons_of_mem m1 hm
    rw [Finset.empty_union, hcompg1]
    exact hsub1 m hmg1
  have hmax1 : maxByLen g1.components = some (g1.comp m1) := by
    rw [hcomps1]; rfl
  rw [keep_largest_component_of_components hmax1, hcompg1,
    keep_only_nodes_id hsub1]

/-- Idempotence witness graph: the edge 1→2 plus the isolated node 3;
the largest component is `{1, 2}`. -/
def gC9 : Graph := (Graph.emptyG.add_edges_from [(1, 2)]).addNode 3

/-- Witness for C9 at the concrete graph `gC9`. -/
theorem keep_largest_component_idempotent_witness :
    gC9.nodes ≠ [] ∧
    ∃ g1, gC9.keep_largest_component = .ok g1 ∧ g1.keep_largest_component = .ok g1 :=
  ⟨by decide, keep_largest_component_idempotent gC9 (by decide)⟩

/-! ### Claim theorems C5, C6: extractor grammars on the literal lines -/

/-- C5 counterexample: on the literal line
`(1,'Foo',0,0,1,0.0,'x','y',0,0,'z',NULL)` the page-table extractor
yields no record at all — the grammar requires the namespace code as
the second field, before the title — so it yields neither an article
record with `page_id = 1` nor a category record with title `Foo`. -/
theorem page_extractor_literal_line_no_records :
    Assets.pageEntries lineC5 = [] ∧
    (¬ ∃ e ∈ Assets.pageEntries lineC5, e.is_article = true ∧ e.page_id = 1) ∧
    (¬ ∃ e ∈ Assets.pageEntries lineC5,
        e.is_article = false ∧ e.page_id = 1 ∧ e.page_title = some "Foo") := by
  refine ⟨by decide, ?_, ?_⟩ <;> decide

/-- C5 amended: with the namespace code in its grammatical place as the
second field, the row with namespace 0 yields exactly one article
record with `page_id = 1` (title discarded), and the row with
namespace 14 yields exactly one category record with `page_id = 1` and
title `Foo`. -/
theorem page_extractor_namespace_in_second_field :
    Assets.pageEntries lineC5ns0 = [⟨1, none, true⟩] ∧
    Assets.pageEntries lineC5ns14 = [⟨1, some "Foo", false⟩] := by
  refine ⟨?_, ?_⟩ <;> decide

/-- C6 counterexample: on the literal line `(5,'Bar',0,0,0,0,'page')`
(and its `subcat` variant) the category-links extractor yields no
record at all — the grammar requires the four middle fields to be
quoted strings — so it yields no record with `from_id = 5`. -/
theorem cl_extractor_literal_line_no_records :
    Assets.clEntries lineC6page = [] ∧ Assets.clEntries lineC6subcat = [] ∧
    (¬ ∃ e ∈ Assets.clEntries lineC6page, e.cl_from = 5) := by
  refine ⟨by decide, by decide, ?_⟩
  decide

/-- C6 amended: with the four middle fields as quoted strings, the
`page` row yields exactly `(from_id = 5, to_name = "Bar",
is_article = true)` and the `subcat` row yields the same record with
`is_article = false`. -/
theorem cl_extractor_quoted_middle_fields :
    Assets.clEntries lineC6pageOk = [⟨5, "Bar", true⟩] ∧
    Assets.clEntries lineC6subcatOk = [⟨5, "Bar", false⟩] := by
  refine ⟨?_, ?_⟩ <;> decide

end CatDb
